import Mathlib

/-!
Verification of the extractive text-summarizer library (Tokenizer,
TextRank ranker, Summarizer orchestration) against its specification.

Modelling conventions:
* JavaScript strings are modelled as `List Char`; the character classes
  `[A-Z]`, `[a-z]`, `\w`, `\s` of the source regexes are modelled over
  ASCII, which is the domain the heuristics target.
* JavaScript numbers are modelled with exact arithmetic: `ℚ` where the
  source only adds/multiplies rationals (position scores, the summary
  fraction), `ℝ` where the source uses `Math.sqrt` / `Math.log`
  (similarity, TF-IDF, TextRank).  Definitions touching `ℝ` are
  noncomputable; everything else is executable.
* `STOPWORDS` lives in a source file (`stopwords.js`) that is not part of
  the sources provided; per the spec its exact membership is a design
  parameter, so every definition is parametrised by a membership
  predicate `sw : List Char → Bool` (modelled from the spec: "A fixed
  stopword set ... its exact membership is a design parameter").
-/

namespace Tokenizer

/-- ASCII uppercase, the `[A-Z]` class of the source regexes. -/
def isUpperCh (c : Char) : Bool := 'A' ≤ c && c ≤ 'Z'

/-- ASCII lowercase, the `[a-z]` class of the source regexes. -/
def isLowerCh (c : Char) : Bool := 'a' ≤ c && c ≤ 'z'

/-- ASCII digit. -/
def isDigitCh (c : Char) : Bool := '0' ≤ c && c ≤ '9'

/-- The `\w` class: letters, digits and underscore. -/
def isWordCh (c : Char) : Bool := isUpperCh c || isLowerCh c || isDigitCh c || c = '_'

/-- The `\s` class restricted to ASCII whitespace. -/
def isSpaceCh (c : Char) : Bool :=
  c = ' ' || c = '\t' || c = '\n' || c = '\r' || c = '\x0b' || c = '\x0c'

/-- The private marker `_PERIOD_` used by `splitSentences`. -/
def periodMarker : List Char := ['_', 'P', 'E', 'R', 'I', 'O', 'D', '_']

/-- The global replacement
`text.replace(/([A-Z][a-z]+\.)(\s[A-Z])/g, '$1_PERIOD_$2')` of
`Tokenizer.splitSentences`: at each match (an uppercase letter, a
nonempty maximal lowercase run, a period, one whitespace character, an
uppercase letter) the replacement emits group 1 — which still contains
the period — then the marker, then group 2, and the scan resumes after
the match.  Positions inside a failed window are rescanned one character
at a time, which is equivalent to the regex engine's behaviour because a
match can only start at an uppercase letter. -/
def protectAbbrevGo : ℕ → List Char → List Char
  | 0, l => l
  | _, [] => []
  | fuel + 1, c :: rest =>
    if isUpperCh c then
      let run := rest.takeWhile isLowerCh
      if run.length = 0 then c :: protectAbbrevGo fuel rest
      else
        match rest.dropWhile isLowerCh with
        | '.' :: w :: u :: r2 =>
          if isSpaceCh w && isUpperCh u then
            (c :: run) ++ '.' :: periodMarker ++ w :: u :: protectAbbrevGo fuel r2
          else c :: protectAbbrevGo fuel rest
        | _ => c :: protectAbbrevGo fuel rest
    else c :: protectAbbrevGo fuel rest

/-- Entry point of the scan above.  The fuel is the input length; every
step consumes at least one input character while spending exactly one
unit of fuel, so the fuel never runs out and only bounds the recursion
structurally. -/
def protectAbbrev (l : List Char) : List Char := protectAbbrevGo l.length l

/-- The split `preprocessed.split(/(?<=[.!?])\s+(?=[A-Z"]|$)/)`: a
separator is a maximal whitespace run whose preceding character is
`.`, `!` or `?` and whose following character is an uppercase letter, a
double quote, or the end of the input (the greedy `\s+` cannot
successfully backtrack to a shorter run because the lookahead would then
face another whitespace character).  `acc` is the piece currently being
assembled; like the JavaScript `split`, empty pieces are produced at a
separator touching the ends of the input. -/
def splitBoundaryGo : ℕ → List Char → List Char → List (List Char)
  | 0, acc, l => [acc ++ l]
  | _, acc, [] => [acc]
  | fuel + 1, acc, c :: rest =>
    if isSpaceCh c && (acc.getLast? matches some '.' | some '!' | some '?') then
      match rest.dropWhile isSpaceCh with
      | [] => [acc, []]
      | d :: _ =>
        if isUpperCh d || d = '"' then
          acc :: splitBoundaryGo fuel [] (rest.dropWhile isSpaceCh)
        else splitBoundaryGo fuel (acc ++ [c]) rest
    else splitBoundaryGo fuel (acc ++ [c]) rest

/-- Entry point of the boundary scan, with the input length as
never-exhausted structural fuel. -/
def splitBoundary (acc : List Char) (l : List Char) : List (List Char) :=
  splitBoundaryGo l.length acc l

/-- The restoration `s.replace(/_PERIOD_/g, '.')`: each occurrence of
the eight-character marker is replaced by a single period, scanning left
to right. -/
def restorePeriod : List Char → List Char
  | '_' :: 'P' :: 'E' :: 'R' :: 'I' :: 'O' :: 'D' :: '_' :: rest => '.' :: restorePeriod rest
  | c :: rest => c :: restorePeriod rest
  | [] => []

/-- JavaScript `String.prototype.trim` over the modelled whitespace
class. -/
def trimChars (l : List Char) : List Char :=
  ((l.dropWhile isSpaceCh).reverse.dropWhile isSpaceCh).reverse

/-- `Tokenizer.splitSentences`: protect abbreviation-like patterns,
split on sentence boundaries, restore the marker, trim, drop empties. -/
def splitSentences (text : List Char) : List (List Char) :=
  let preprocessed := protectAbbrev text
  ((splitBoundary [] preprocessed).map fun s => trimChars (restorePeriod s)).filter
    fun sentence => sentence.length > 0

/-- Case-insensitive literal match: `matchCI pat l` returns the rest of
`l` after a prefix that matches `pat` (given lowercased) up to ASCII
case. -/
def matchCI : List Char → List Char → Option (List Char)
  | [], l => some l
  | _ :: _, [] => none
  | p :: ps, c :: cs => if c.toLower = p then matchCI ps cs else none

/-- One case-insensitive global replacement with a trailing `\b`, the
shape of every contraction rule in `tokenizeWords`
(e.g. `replace(/n't\b/gi, " not")`): the pattern `p0 :: ps` (lowercase)
matches up to case and must be followed by a non-word character or the
end of the input; on a match the replacement is emitted and the scan
resumes after the match. -/
def replaceWBGo (p0 : Char) (ps : List Char) (repl : List Char) :
    ℕ → List Char → List Char
  | 0, l => l
  | _, [] => []
  | fuel + 1, c :: rest =>
    match matchCI (p0 :: ps) (c :: rest) with
    | some after =>
      if after.head?.all (fun d => ! isWordCh d) then
        repl ++ replaceWBGo p0 ps repl fuel after
      else c :: replaceWBGo p0 ps repl fuel rest
    | none => c :: replaceWBGo p0 ps repl fuel rest

/-- Entry point of the replacement scan, with the input length as
never-exhausted structural fuel. -/
def replaceWB (p0 : Char) (ps : List Char) (repl : List Char) (l : List Char) :
    List Char :=
  replaceWBGo p0 ps repl l.length l

/-- The whitespace split `expanded.split(/\s+/)`: pieces between maximal
whitespace runs; like the JavaScript `split`, an empty piece appears at
a run touching either end of the input. -/
def splitWsGo : ℕ → List Char → List Char → List (List Char)
  | 0, acc, l => [acc ++ l]
  | _, acc, [] => [acc]
  | fuel + 1, acc, c :: rest =>
    if isSpaceCh c then acc :: splitWsGo fuel [] (rest.dropWhile isSpaceCh)
    else splitWsGo fuel (acc ++ [c]) rest

/-- Entry point of the whitespace split, with the input length as
never-exhausted structural fuel. -/
def splitWs (acc : List Char) (l : List Char) : List (List Char) :=
  splitWsGo l.length acc l

/-- The vowel test `/[aeiou]/.test(stem)` of `stemWord`. -/
def containsVowel (l : List Char) : Bool :=
  l.any fun c => c = 'a' || c = 'e' || c = 'i' || c = 'o' || c = 'u'

/-- The suffix cascade of `Tokenizer.stemWord` on a hyphen-free word:
length guard, then the `ing`/`ed`/`ly`/`ies`/`es`/`s` rules in source
order (the `ing` and `ed` rules fall through when the candidate stem has
no vowel, exactly as the nested `if` of the source does). -/
def stemBase (word : List Char) : List Char :=
  if word.length ≤ 2 then word
  else if ['i', 'n', 'g'].isSuffixOf word ∧ word.length > 5 ∧
      containsVowel (word.take (word.length - 3)) then word.take (word.length - 3)
  else if ['e', 'd'].isSuffixOf word ∧ word.length > 4 ∧
      containsVowel (word.take (word.length - 2)) then word.take (word.length - 2)
  else if ['l', 'y'].isSuffixOf word ∧ word.length > 4 then word.take (word.length - 2)
  else if ['i', 'e', 's'].isSuffixOf word ∧ word.length > 4 then word.take (word.length - 3) ++ ['y']
  else if ['e', 's'].isSuffixOf word ∧ word.length > 3 then word.take (word.length - 2)
  else if ['s'].isSuffixOf word ∧ ¬ ['s', 's'].isSuffixOf word ∧ word.length > 3 then
    word.take (word.length - 1)
  else word

/-- `Tokenizer.stemWord`: a word containing a hyphen is split on
hyphens, each part is stemmed, and the parts are rejoined.  The source
calls `stemWord` recursively on the parts; since a part produced by the
hyphen split contains no hyphen, that recursive call reduces to the
suffix cascade `stemBase`, which is how it is written here. -/
def stemWord (word : List Char) : List Char :=
  if '-' ∈ word then List.intercalate ['-'] ((word.splitOn '-').map stemBase)
  else stemBase word

/-- `Tokenizer.tokenizeWords`: contraction expansion, lowercasing,
punctuation blanking, whitespace split, stemming, optional stopword
removal.  `sw` is the membership test of the `STOPWORDS` set. -/
def tokenizeWords (sw : List Char → Bool) (sentence : List Char)
    (removeStopwords : Bool) : List (List Char) :=
  let expanded :=
    replaceWB '\'' ['s'] []
      (replaceWB '\'' ['m'] [' ', 'a', 'm']
        (replaceWB '\'' ['v', 'e'] [' ', 'h', 'a', 'v', 'e']
          (replaceWB '\'' ['r', 'e'] [' ', 'a', 'r', 'e']
            (replaceWB '\'' ['l', 'l'] [' ', 'w', 'i', 'l', 'l']
              (replaceWB 'n' ['\'', 't'] [' ', 'n', 'o', 't'] sentence)))))
  let lowered := expanded.map Char.toLower
  let blanked := lowered.map fun c =>
    if isWordCh c || isSpaceCh c || c = '-' then c else ' '
  let words :=
    ((splitWs [] blanked).map trimChars).filter fun word => word.length > 0
  let stemmedWords := words.map stemWord
  if removeStopwords then stemmedWords.filter fun word => ¬ sw word
  else stemmedWords

end Tokenizer

namespace TextRank

/-- Damping factor used in the TextRank algorithm. -/
noncomputable def DAMPING : ℝ := 0.85

/-- Maximum number of iterations for convergence. -/
def MAX_ITERATIONS : ℕ := 50

/-- Threshold for determining convergence. -/
noncomputable def CONVERGENCE_THRESHOLD : ℝ := 0.0001

/-- The token set `new Set(Tokenizer.tokenizeWords(sentence))` of
`calculateSimilarity`: tokens with stopwords removed and duplicates
collapsed.  Only the cardinalities of these sets and of their
intersection are observed by the source, so the insertion order kept by
a JavaScript `Set` is irrelevant and `List.dedup` is used. -/
def tokenSetOf (sw : List Char → Bool) (sentence : List Char) : List (List Char) :=
  (Tokenizer.tokenizeWords sw sentence true).dedup

/-- `TextRank.calculateSimilarity`: 0 if either token set is empty,
otherwise the intersection size divided by the product of the square
roots of the two set sizes. -/
noncomputable def calculateSimilarity (sw : List Char → Bool)
    (sentence1 sentence2 : List Char) : ℝ :=
  let words1 := tokenSetOf sw sentence1
  let words2 := tokenSetOf sw sentence2
  if words1.length = 0 ∨ words2.length = 0 then 0
  else ((words1.filter fun word => word ∈ words2).length : ℝ) /
    (Real.sqrt words1.length * Real.sqrt words2.length)

/-- `TextRank.buildSimilarityMatrix` as an index function: the diagonal
is 0 and entry `(i, j)` is the similarity of sentences `i` and `j`. -/
noncomputable def buildSimilarityMatrix (sw : List Char → Bool)
    (sentences : List (List Char)) : ℕ → ℕ → ℝ :=
  fun i j =>
    if i = j then 0
    else calculateSimilarity sw (sentences.getD i []) (sentences.getD j [])

/-- The row normalisation of `rankSentences`: each row is divided by its
sum, and a row summing to 0 is replaced by the uniform row `1/n`. -/
noncomputable def normalizedMatrix (sw : List Char → Bool)
    (sentences : List (List Char)) : ℕ → ℕ → ℝ :=
  fun i j =>
    let n := sentences.length
    let row := buildSimilarityMatrix sw sentences i
    let sum := ∑ k ∈ Finset.range n, row k
    if sum = 0 then 1 / n else row j / sum

/-- One synchronous update round of the ranking loop:
`newScores[i] = Σ_{j≠i} DAMPING · normalized[j][i] · scores[j] + (1 − DAMPING)/n`. -/
noncomputable def textRankStep (sw : List Char → Bool)
    (sentences : List (List Char)) (scores : ℕ → ℝ) : ℕ → ℝ :=
  fun i =>
    let n := sentences.length
    (∑ j ∈ Finset.range n,
      if j ≠ i then DAMPING * normalizedMatrix sw sentences j i * scores j else 0) +
      (1 - DAMPING) / n

/-- The convergence measure: Euclidean distance between the previous and
the new score vectors over the first `n` indices. -/
noncomputable def scoreDiff (n : ℕ) (s t : ℕ → ℝ) : ℝ :=
  Real.sqrt (∑ i ∈ Finset.range n, (s i - t i) ^ 2)

open Classical in
/-- The `while (!converged && iteration < MAX_ITERATIONS)` loop of
`rankSentences`, with the remaining iteration budget as fuel: each round
computes the new scores, adopts them, and stops early once the distance
to the previous vector drops below the threshold. -/
noncomputable def textRankLoop (sw : List Char → Bool)
    (sentences : List (List Char)) : ℕ → (ℕ → ℝ) → (ℕ → ℝ)
  | 0, scores => scores
  | fuel + 1, scores =>
    let newScores := textRankStep sw sentences scores
    if scoreDiff sentences.length scores newScores < CONVERGENCE_THRESHOLD then newScores
    else textRankLoop sw sentences fuel newScores

/-- `TextRank.rankSentences`: empty input gives an empty result, a
single sentence gets score 1, and otherwise the power iteration runs
from the uniform vector `1/n` for at most `MAX_ITERATIONS` rounds. -/
noncomputable def rankSentences (sw : List Char → Bool)
    (sentences : List (List Char)) : List ℝ :=
  let n := sentences.length
  if n = 0 then []
  else if n = 1 then [1]
  else (List.range n).map
    (textRankLoop sw sentences MAX_ITERATIONS fun _ => 1 / (n : ℝ))

end TextRank

namespace Summarizer

/-- The `SentenceWithMetadata` record of the source: global index,
sentence text, paragraph number, word count (tokenized with stopwords
kept), and position score. -/
structure SentenceWithMetadata where
  index : ℕ
  text : List Char
  paragraph : ℕ
  length : ℕ
  position : ℚ
deriving DecidableEq

/-- The options record of `summarize`. -/
structure SummarizeOptions where
  deduplicateSimilar : Bool
  favorPositionScore : Bool
deriving DecidableEq

/-- The newline split `\n+` used for paragraphs: pieces between maximal
newline runs, with the JavaScript empty edge pieces preserved. -/
def splitNlGo : ℕ → List Char → List Char → List (List Char)
  | 0, acc, l => [acc ++ l]
  | _, acc, [] => [acc]
  | fuel + 1, acc, c :: rest =>
    if c = '\n' then acc :: splitNlGo fuel [] (rest.dropWhile fun d => d = '\n')
    else splitNlGo fuel (acc ++ [c]) rest

/-- Entry point of the newline split, with the input length as
never-exhausted structural fuel. -/
def splitNl (acc : List Char) (l : List Char) : List (List Char) :=
  splitNlGo l.length acc l

/-- `text.split(/\n+/).map(p => p.trim()).filter(p => p.length > 0)`. -/
def paragraphsOf (text : List Char) : List (List Char) :=
  ((splitNl [] text).map Tokenizer.trimChars).filter fun p => p.length > 0

/-- The base position score of a sentence inside its paragraph: 1 for a
one-sentence paragraph or the first sentence, 0.8 for the last sentence,
and `0.5 − 0.4·(localIdx / paragraphSentCount)` for interior ones. -/
def basePositionScore (localIdx paragraphSentCount : ℕ) : ℚ :=
  if paragraphSentCount ≤ 1 then 1
  else if localIdx = 0 then 1
  else if localIdx = paragraphSentCount - 1 then 0.8
  else 0.5 - 0.4 * ((localIdx : ℚ) / (paragraphSentCount : ℚ))

/-- The position score of `Summarizer.summarize` for a sentence at local
position `localIdx` in a paragraph of `paragraphSentCount` sentences, in
paragraph `paragraphIdx` of `paragraphTotal`: the base score is
multiplied by 1.2 in the first paragraph, else by 1.1 in the last
paragraph, and clamped to `[0, 1]`. -/
def positionScore (paragraphIdx paragraphTotal localIdx paragraphSentCount : ℕ) : ℚ :=
  let base := basePositionScore localIdx paragraphSentCount
  let scaled :=
    if paragraphIdx = 0 then base * 1.2
    else if paragraphIdx = paragraphTotal - 1 then base * 1.1
    else base
  max 0 (min 1 scaled)

/-- The metadata records pushed for one paragraph: local enumeration of
its sentences, with global indices starting at `gStart`. -/
def metaOfParagraph (sw : List Char → Bool) (favor : Bool)
    (paragraphTotal paragraphIdx gStart : ℕ)
    (sentences : List (List Char)) : List SentenceWithMetadata :=
  sentences.enum.map fun p =>
    SentenceWithMetadata.mk (gStart + p.1) p.2 paragraphIdx
      (Tokenizer.tokenizeWords sw p.2 false).length
      (if favor then positionScore paragraphIdx paragraphTotal p.1 sentences.length
       else 0.5)

/-- The paragraph loop of `summarize` that builds `sentencesWithMetadata`,
carrying the running paragraph index and the mutable `globalIndex`. -/
def buildMetadata (sw : List Char → Bool) (favor : Bool) (paragraphTotal : ℕ) :
    ℕ → ℕ → List (List Char) → List SentenceWithMetadata
  | _, _, [] => []
  | paragraphIdx, gIdx, p :: rest =>
    let ss := Tokenizer.splitSentences p
    metaOfParagraph sw favor paragraphTotal paragraphIdx gIdx ss ++
      buildMetadata sw favor paragraphTotal (paragraphIdx + 1) (gIdx + ss.length) rest

/-- The full `sentencesWithMetadata` list built by `summarize` for a
text. -/
def sentencesWithMetadata (sw : List Char → Bool) (favor : Bool)
    (text : List Char) : List SentenceWithMetadata :=
  let paragraphs := paragraphsOf text
  buildMetadata sw favor paragraphs.length 0 0 paragraphs

/-- `Summarizer.calculateTfIdf` as the lookup function
`word ↦ tfIdfScores.get(word) || 0`: term frequency counts every
occurrence across all sentences, document frequency counts the sentences
containing the word, and a word absent from the frequency table looks up
to 0. -/
noncomputable def calculateTfIdf (sw : List Char → Bool)
    (sentences : List (List Char)) (word : List Char) : ℝ :=
  let tokenized := sentences.map fun s => Tokenizer.tokenizeWords sw s true
  let freq := (tokenized.map fun toks => toks.count word).sum
  let df := (tokenized.filter fun toks => word ∈ toks).length
  let totalDocs := sentences.length
  if freq = 0 then 0
  else (freq : ℝ) * Real.log ((totalDocs : ℝ) / ((if df = 0 then 1 else df) : ℕ))

/-- `Summarizer.scoreSentences` as the association list
`(sentence.index, finalScore)` in input order, mirroring the insertions
into the score map. -/
noncomputable def scoreSentences (sw : List Char → Bool)
    (sentences : List SentenceWithMetadata) (tfIdf : List Char → ℝ) :
    List (ℕ × ℝ) :=
  let textRankScores := TextRank.rankSentences sw (sentences.map fun s => s.text)
  sentences.enum.map fun p =>
    let words := Tokenizer.tokenizeWords sw p.2.text true
    let tfIdfScore := ((words.map tfIdf).sum) / ((max 1 words.length : ℕ) : ℝ)
    let textRankScore := textRankScores.getD p.1 0
    let posScore : ℝ := (p.2.position : ℝ)
    let lengthScore : ℝ := min 1 ((p.2.length : ℝ) / 10)
    (p.2.index,
      0.4 * tfIdfScore + 0.3 * textRankScore + 0.2 * posScore + 0.1 * lengthScore)

/-- The score-map lookup `sentenceScores.get(s.index) || 0`. -/
noncomputable def scoreLookup (pairs : List (ℕ × ℝ)) (i : ℕ) : ℝ :=
  (pairs.lookup i).getD 0

/-- The target sentence count of `summarize`:
`maxSentences ? min(maxSentences, total) : max(1, floor(total × summaryRatio))`.
A supplied maximum of 0 is falsy in JavaScript, so it falls to the
fraction-based branch. -/
def sentenceCountOf (total : ℕ) (rat : ℚ) (maxSentences : Option ℕ) : ℕ :=
  let fromFraction := (max 1 ⌊(total : ℚ) * rat⌋).toNat
  match maxSentences with
  | some m => if m = 0 then fromFraction else min m total
  | none => fromFraction

open Classical in
/-- `Summarizer.deduplicateSentences`: walk the candidates in order and
keep one unless its similarity to an already kept sentence exceeds the
threshold. -/
noncomputable def deduplicateSentences (sw : List Char → Bool)
    (candidates : List SentenceWithMetadata) (similarityThreshold : ℝ) :
    List SentenceWithMetadata :=
  candidates.foldl
    (fun result candidate =>
      if ∃ s ∈ result,
          similarityThreshold < TextRank.calculateSimilarity sw candidate.text s.text then
        result
      else result ++ [candidate])
    []

open Classical in
/-- The `topSentences` stage of `summarize`: pair each sentence with its
score, sort by score descending (stably, as the JavaScript sort does),
keep the top `2 × count` when deduplication is on and `count` otherwise,
and drop the scores. -/
noncomputable def topSentencesOf (sw : List Char → Bool) (text : List Char)
    (rat : ℚ) (maxSentences : Option ℕ) (options : SummarizeOptions) :
    List SentenceWithMetadata :=
  let meta := sentencesWithMetadata sw options.favorPositionScore text
  let tfIdf := calculateTfIdf sw (meta.map fun s => s.text)
  let pairs := scoreSentences sw meta tfIdf
  let count := sentenceCountOf meta.length rat maxSentences
  (((meta.map fun s => (s, scoreLookup pairs s.index)).mergeSort
      fun a b => decide (b.2 ≤ a.2)).take
    (if options.deduplicateSimilar then count * 2 else count)).map fun p => p.1

/-- The `selectedSentences` stage of `summarize`: optionally deduplicate
and truncate to the target count, then re-sort ascending by the original
index. -/
noncomputable def selectedSentencesOf (sw : List Char → Bool) (text : List Char)
    (rat : ℚ) (maxSentences : Option ℕ) (options : SummarizeOptions) :
    List SentenceWithMetadata :=
  let meta := sentencesWithMetadata sw options.favorPositionScore text
  let count := sentenceCountOf meta.length rat maxSentences
  let tops := topSentencesOf sw text rat maxSentences options
  let chosen :=
    if options.deduplicateSimilar then (deduplicateSentences sw tops 0.6).take count
    else tops
  chosen.mergeSort fun a b => decide (a.index ≤ b.index)

/-- One insertion into the `sentencesByParagraph` keyed map, which keeps
keys in first-appearance order and appends within a bucket. -/
def insertIntoGroups (groups : List (ℕ × List SentenceWithMetadata))
    (s : SentenceWithMetadata) : List (ℕ × List SentenceWithMetadata) :=
  if groups.any fun g => g.1 = s.paragraph then
    groups.map fun g => if g.1 = s.paragraph then (g.1, g.2 ++ [s]) else g
  else groups ++ [(s.paragraph, [s])]

/-- The `sentencesByParagraph` map of `summarize`, as an association
list in key insertion order. -/
noncomputable def sentenceGroupsOf (sw : List Char → Bool) (text : List Char)
    (rat : ℚ) (maxSentences : Option ℕ) (options : SummarizeOptions) :
    List (ℕ × List SentenceWithMetadata) :=
  (selectedSentencesOf sw text rat maxSentences options).foldl insertIntoGroups []

/-- `Summarizer.summarize`: the early returns for falsy text, no
non-blank paragraphs, and at most one sentence; otherwise scoring,
selection, per-paragraph joining with spaces and joining of paragraph
summaries with blank lines. -/
noncomputable def summarize (sw : List Char → Bool) (text : List Char)
    (rat : ℚ) (maxSentences : Option ℕ) (options : SummarizeOptions) :
    List Char :=
  if text = [] then []
  else
    let paragraphs := paragraphsOf text
    if paragraphs = [] then []
    else
      let meta := sentencesWithMetadata sw options.favorPositionScore text
      if meta.length ≤ 1 then text
      else
        let groups := sentenceGroupsOf sw text rat maxSentences options
        let paragraphSummaries :=
          (groups.map fun g =>
            List.intercalate [' ']
              ((g.2.mergeSort fun a b => decide (a.index ≤ b.index)).map
                fun s => s.text)).filter fun p => p ≠ []
        List.intercalate ['\n', '\n'] paragraphSummaries

end Summarizer

/-- C1: the abbreviation protection of `splitSentences` is defective.
The replacement `$1_PERIOD_$2` keeps the period inside group 1 and only
inserts the marker after it, and the restoration turns the marker back
into a period, so the abbreviation period comes out doubled.  On
"Mr. Smith went home." the single returned sentence is
"Mr.. Smith went home.", which is one character longer than the whole
input and hence not a verbatim trimmed segment of it. -/
theorem splitSentences_abbrev_adds_char :
    Tokenizer.splitSentences "Mr. Smith went home.".toList =
      ["Mr.. Smith went home.".toList] ∧
    ("Mr.. Smith went home.".toList).length =
      ("Mr. Smith went home.".toList).length + 1 := by
  decide

/-- C5 counterexample: "ab-cing" ends in "ing", has length 7 > 5, and
its candidate stem "ab-c" contains a vowel, yet `stemWord` does not
return the word minus "ing": the hyphen rule fires first, splits the
word, and neither part alone satisfies the "ing" rule. -/
theorem stemWord_ing_hyphen_counterexample :
    (['i', 'n', 'g'].isSuffixOf "ab-cing".toList) = true ∧
    5 < "ab-cing".toList.length ∧
    Tokenizer.containsVowel
      ("ab-cing".toList.take ("ab-cing".toList.length - 3)) = true ∧
    Tokenizer.stemWord "ab-cing".toList ≠
      "ab-cing".toList.take ("ab-cing".toList.length - 3) := by
  decide

/-- C5 (amended): for every hyphen-free word ending in "ing" with
length > 5 whose candidate stem contains a vowel, `stemWord` returns the
word minus "ing"; in particular `stemWord "running" = "runn"`. -/
theorem stemWord_ing_rule :
    (∀ w : List Char, '-' ∉ w →
      ['i', 'n', 'g'].isSuffixOf w →
      5 < w.length →
      Tokenizer.containsVowel (w.take (w.length - 3)) →
      Tokenizer.stemWord w = w.take (w.length - 3)) ∧
    Tokenizer.stemWord "running".toList = "runn".toList := by
  constructor
  · intro w hmem hsuf hlen hvow
    rw [Tokenizer.stemWord, if_neg hmem, Tokenizer.stemBase,
      if_neg (by omega), if_pos ⟨hsuf, by omega, hvow⟩]
  · decide

/-- C5 witness: the amended rule applied to the concrete hyphen-free
word "jumping". -/
theorem stemWord_ing_rule_witness :
    Tokenizer.stemWord "jumping".toList =
      "jumping".toList.take ("jumping".toList.length - 3) :=
  stemWord_ing_rule.1 "jumping".toList (by decide) (by decide) (by decide)
    (by decide)

/-- C6: the position score multiplies the base score by 1.2 in the
first paragraph, else by 1.1 in the last paragraph — never both, and in
a one-paragraph document (where the only paragraph is simultaneously
first and last) the first-paragraph check wins — and the result is
always clamped to `[0, 1]`. -/
theorem positionScore_multipliers
    (paragraphIdx paragraphTotal localIdx paragraphSentCount : ℕ) :
    (0 ≤ Summarizer.positionScore paragraphIdx paragraphTotal localIdx
        paragraphSentCount ∧
      Summarizer.positionScore paragraphIdx paragraphTotal localIdx
        paragraphSentCount ≤ 1) ∧
    (paragraphIdx = 0 →
      Summarizer.positionScore paragraphIdx paragraphTotal localIdx
          paragraphSentCount =
        max 0 (min 1
          (Summarizer.basePositionScore localIdx paragraphSentCount * 1.2))) ∧
    (paragraphIdx ≠ 0 → paragraphIdx = paragraphTotal - 1 →
      Summarizer.positionScore paragraphIdx paragraphTotal localIdx
          paragraphSentCount =
        max 0 (min 1
          (Summarizer.basePositionScore localIdx paragraphSentCount * 1.1))) ∧
    (paragraphTotal = 1 → paragraphIdx = paragraphTotal - 1 → paragraphIdx = 0 →
      Summarizer.positionScore paragraphIdx paragraphTotal localIdx
          paragraphSentCount =
        max 0 (min 1
          (Summarizer.basePositionScore localIdx paragraphSentCount * 1.2))) := by
  refine ⟨⟨le_max_left 0 _, max_le (by norm_num) (min_le_left 1 _)⟩, ?_, ?_, ?_⟩
  · intro h0
    simp only [Summarizer.positionScore]
    rw [if_pos h0]
  · intro h0 hlast
    simp only [Summarizer.positionScore]
    rw [if_neg h0, if_pos hlast]
  · intro _ _ h0
    simp only [Summarizer.positionScore]
    rw [if_pos h0]

/-- C6 witness: the one-paragraph precedence case at concrete indices
(paragraph 0 of 1, sentence 1 of 3). -/
theorem positionScore_multipliers_witness :
    Summarizer.positionScore 0 1 1 3 =
      max 0 (min 1 (Summarizer.basePositionScore 1 3 * 1.2)) :=
  (positionScore_multipliers 0 1 1 3).2.2.2 rfl (by decide) rfl

/-- C4: `rankSentences` returns the empty sequence on the empty list,
the single score 1 on a one-element list, and in general one score per
input sentence, in input order (the i-th entry of the result is the
score computed for sentence i). -/
theorem rankSentences_mirrors_input (sw : List Char → Bool) :
    TextRank.rankSentences sw [] = [] ∧
    (∀ s : List Char, TextRank.rankSentences sw [s] = [1]) ∧
    (∀ sentences : List (List Char),
      (TextRank.rankSentences sw sentences).length = sentences.length) := by
  refine ⟨by simp [TextRank.rankSentences], fun s => by simp [TextRank.rankSentences], ?_⟩
  intro sentences
  by_cases h0 : sentences.length = 0
  · simp [TextRank.rankSentences, h0]
  · by_cases h1 : sentences.length = 1
    · simp [TextRank.rankSentences, h0, h1]
    · simp [TextRank.rankSentences, h0, h1]

theorem tokenSetOf_nodup (sw : List Char → Bool) (s : List Char) :
    (TextRank.tokenSetOf sw s).Nodup := List.nodup_dedup _

/-- The intersection count of a duplicate-free list with any list is the
cardinality of the intersection of the corresponding finite sets. -/
theorem filter_mem_length_eq_card (w1 w2 : List (List Char)) (h1 : w1.Nodup) :
    ((w1.filter fun w => w ∈ w2).length : ℕ) =
      (w1.toFinset ∩ w2.toFinset).card := by
  have hnd : (w1.filter fun w => w ∈ w2).Nodup := h1.filter _
  rw [← List.toFinset_card_of_nodup hnd, List.toFinset_filter]
  congr 1
  rw [← Finset.filter_mem_eq_inter]
  apply Finset.filter_congr
  intro x _
  simp

/-- The token-set sizes of `calculateSimilarity` are `toFinset`
cardinalities. -/
theorem tokenSetOf_length_eq_card (sw : List Char → Bool) (s : List Char) :
    (TextRank.tokenSetOf sw s).length = (TextRank.tokenSetOf sw s).toFinset.card :=
  (List.toFinset_card_of_nodup (tokenSetOf_nodup sw s)).symm

theorem self_sqrt_frac (n : ℕ) (h : n ≠ 0) :
    (n : ℝ) / (Real.sqrt n * Real.sqrt n) = 1 := by
  rw [Real.mul_self_sqrt (Nat.cast_nonneg n)]
  exact div_self (Nat.cast_ne_zero.mpr h)

theorem sqrt_frac_nonneg (k n1 n2 : ℕ) :
    0 ≤ (k : ℝ) / (Real.sqrt n1 * Real.sqrt n2) :=
  div_nonneg (Nat.cast_nonneg k)
    (mul_nonneg (Real.sqrt_nonneg _) (Real.sqrt_nonneg _))

theorem sqrt_frac_le_one (k n1 n2 : ℕ) (h1 : k ≤ n1) (h2 : k ≤ n2)
    (hp1 : n1 ≠ 0) (hp2 : n2 ≠ 0) :
    (k : ℝ) / (Real.sqrt n1 * Real.sqrt n2) ≤ 1 := by
  have hpos : (0 : ℝ) < Real.sqrt n1 * Real.sqrt n2 :=
    mul_pos (Real.sqrt_pos.mpr (by exact_mod_cast Nat.pos_of_ne_zero hp1))
      (Real.sqrt_pos.mpr (by exact_mod_cast Nat.pos_of_ne_zero hp2))
  refine (div_le_one hpos).mpr ?_
  have hmul : ((k : ℝ)) * k ≤ (n1 : ℝ) * n2 := by
    exact_mod_cast Nat.mul_le_mul h1 h2
  calc (k : ℝ) = Real.sqrt ((k : ℝ) * k) := (Real.sqrt_mul_self (Nat.cast_nonneg k)).symm
    _ ≤ Real.sqrt ((n1 : ℝ) * n2) := Real.sqrt_le_sqrt hmul
    _ = Real.sqrt n1 * Real.sqrt n2 := Real.sqrt_mul (Nat.cast_nonneg n1) _

/-- C7: `calculateSimilarity` returns exactly 1 on a sentence whose
token set is non-empty compared with itself, is symmetric, always lies
in `[0, 1]`, and is 0 whenever either token set is empty. -/
theorem calculateSimilarity_props (sw : List Char → Bool) (a b : List Char) :
    (TextRank.tokenSetOf sw a ≠ [] → TextRank.calculateSimilarity sw a a = 1) ∧
    TextRank.calculateSimilarity sw a b = TextRank.calculateSimilarity sw b a ∧
    0 ≤ TextRank.calculateSimilarity sw a b ∧
    TextRank.calculateSimilarity sw a b ≤ 1 ∧
    ((TextRank.tokenSetOf sw a = [] ∨ TextRank.tokenSetOf sw b = []) →
      TextRank.calculateSimilarity sw a b = 0) := by
  refine ⟨?_, ?_, ?_, ?_, ?_⟩
  · intro hne
    have hlen : (TextRank.tokenSetOf sw a).length ≠ 0 := by
      simpa using hne
    rw [TextRank.calculateSimilarity, if_neg (by push_neg; exact ⟨hlen, hlen⟩)]
    have hfilter : ((TextRank.tokenSetOf sw a).filter
        fun w => w ∈ TextRank.tokenSetOf sw a) = TextRank.tokenSetOf sw a := by
      apply List.filter_eq_self.mpr
      intro w hw
      simpa using hw
    rw [hfilter]
    exact self_sqrt_frac _ hlen
  · by_cases h : (TextRank.tokenSetOf sw a).length = 0 ∨
        (TextRank.tokenSetOf sw b).length = 0
    · rw [TextRank.calculateSimilarity, TextRank.calculateSimilarity,
        if_pos h, if_pos h.symm]
    · rw [TextRank.calculateSimilarity, TextRank.calculateSimilarity,
        if_neg h, if_neg (fun hc => h hc.symm)]
      rw [filter_mem_length_eq_card _ _ (tokenSetOf_nodup sw a),
        filter_mem_length_eq_card _ _ (tokenSetOf_nodup sw b),
        Finset.inter_comm, mul_comm]
  · rw [TextRank.calculateSimilarity]
    split
    · exact le_refl 0
    · exact sqrt_frac_nonneg _ _ _
  · rw [TextRank.calculateSimilarity]
    split
    · norm_num
    · rename_i h
      push_neg at h
      refine sqrt_frac_le_one _ _ _ ?_ ?_ h.1 h.2
      · rw [filter_mem_length_eq_card _ _ (tokenSetOf_nodup sw a),
          tokenSetOf_length_eq_card]
        exact Finset.card_le_card Finset.inter_subset_left
      · rw [filter_mem_length_eq_card _ _ (tokenSetOf_nodup sw a),
          tokenSetOf_length_eq_card]
        exact Finset.card_le_card Finset.inter_subset_right
  · intro h
    rw [TextRank.calculateSimilarity, if_pos]
    rcases h with h | h
    · exact Or.inl (by simp [h])
    · exact Or.inr (by simp [h])

/-- C7 witness: self-similarity 1 on the concrete sentence "cats run"
(with an empty stopword set), and similarity 0 against the empty
sentence. -/
theorem calculateSimilarity_props_witness :
    TextRank.calculateSimilarity (fun _ => false) "cats run".toList
        "cats run".toList = 1 ∧
    TextRank.calculateSimilarity (fun _ => false) "cats run".toList
        "".toList = 0 :=
  ⟨(calculateSimilarity_props (fun _ => false) "cats run".toList
      "cats run".toList).1 (by decide),
   (calculateSimilarity_props (fun _ => false) "cats run".toList
      "".toList).2.2.2.2 (Or.inr (by decide))⟩

/-- Similarity values are never negative (shared helper). -/
theorem calculateSimilarity_nonneg (sw : List Char → Bool) (a b : List Char) :
    0 ≤ TextRank.calculateSimilarity sw a b := by
  rw [TextRank.calculateSimilarity]
  split
  · exact le_refl 0
  · exact sqrt_frac_nonneg _ _ _

theorem buildSimilarityMatrix_nonneg (sw : List Char → Bool)
    (sentences : List (List Char)) (i j : ℕ) :
    0 ≤ TextRank.buildSimilarityMatrix sw sentences i j := by
  rw [TextRank.buildSimilarityMatrix]
  split
  · exact le_refl 0
  · exact calculateSimilarity_nonneg _ _ _

theorem normalizedMatrix_nonneg (sw : List Char → Bool)
    (sentences : List (List Char)) (i j : ℕ) :
    0 ≤ TextRank.normalizedMatrix sw sentences i j := by
  simp only [TextRank.normalizedMatrix]
  split
  · positivity
  · exact div_nonneg (buildSimilarityMatrix_nonneg sw sentences i j)
      (Finset.sum_nonneg fun k _ => buildSimilarityMatrix_nonneg sw sentences i k)

/-- Every update round keeps each score at least the teleport term. -/
theorem textRankStep_ge (sw : List Char → Bool) (sentences : List (List Char))
    (scores : ℕ → ℝ) (h : ∀ j, 0 ≤ scores j) (i : ℕ) :
    (1 - TextRank.DAMPING) / sentences.length ≤
      TextRank.textRankStep sw sentences scores i := by
  simp only [TextRank.textRankStep]
  refine le_add_of_nonneg_left (Finset.sum_nonneg fun j _ => ?_)
  split
  · refine mul_nonneg (mul_nonneg ?_ (normalizedMatrix_nonneg sw sentences j i)) (h j)
    rw [TextRank.DAMPING]
    norm_num
  · exact le_refl 0

theorem textRankStep_nonneg (sw : List Char → Bool) (sentences : List (List Char))
    (scores : ℕ → ℝ) (h : ∀ j, 0 ≤ scores j) (i : ℕ) :
    0 ≤ TextRank.textRankStep sw sentences scores i := by
  refine le_trans ?_ (textRankStep_ge sw sentences scores h i)
  apply div_nonneg _ (Nat.cast_nonneg _)
  rw [TextRank.DAMPING]
  norm_num

/-- After at least one round, every score is at least the teleport
term, whatever the remaining fuel. -/
theorem textRankLoop_ge (sw : List Char → Bool) (sentences : List (List Char)) :
    ∀ (fuel : ℕ) (scores : ℕ → ℝ), (∀ j, 0 ≤ scores j) → ∀ i,
      (1 - TextRank.DAMPING) / sentences.length ≤
        TextRank.textRankLoop sw sentences (fuel + 1) scores i := by
  intro fuel
  induction fuel with
  | zero =>
    intro scores h i
    simp only [TextRank.textRankLoop]
    split
    · exact textRankStep_ge sw sentences scores h i
    · exact textRankStep_ge sw sentences scores h i
  | succ f ih =>
    intro scores h i
    rw [show f + 1 + 1 = f + 2 from rfl]
    simp only [TextRank.textRankLoop]
    split
    · exact textRankStep_ge sw sentences scores h i
    · exact ih (TextRank.textRankStep sw sentences scores)
        (textRankStep_nonneg sw sentences scores h) i

/-- C10: for every list of at least two sentences, every score
returned by `rankSentences` is at least the teleport term
`(1 − 0.85)/N`: it is added in every update round, each round runs at
least once, and nonnegativity of the matrix entries preserves the
bound. -/
theorem rankSentences_lower_bound (sw : List Char → Bool) (sentences : List (List Char))
    (h2 : 2 ≤ sentences.length) :
    ∀ x ∈ TextRank.rankSentences sw sentences,
      (1 - 0.85) / sentences.length ≤ x := by
  intro x hx
  simp only [TextRank.rankSentences] at hx
  rw [if_neg (by omega), if_neg (by omega)] at hx
  obtain ⟨i, _, rfl⟩ := List.mem_map.mp hx
  have h50 : TextRank.MAX_ITERATIONS = 49 + 1 := rfl
  have := textRankLoop_ge sw sentences 49
    (fun _ => 1 / (sentences.length : ℝ)) (fun j => by positivity) i
  rw [← h50] at this
  have hD : TextRank.DAMPING = 0.85 := rfl
  rw [hD] at this
  exact this

/-- C10 witness: the bound applied to a concrete two-sentence list. -/
theorem rankSentences_lower_bound_witness :
    2 ≤ (["Cats run.".toList, "Dogs sit.".toList] : List (List Char)).length ∧
    ∀ x ∈ TextRank.rankSentences (fun _ => false)
        ["Cats run.".toList, "Dogs sit.".toList],
      (1 - 0.85) /
        ((["Cats run.".toList, "Dogs sit.".toList] : List (List Char)).length : ℝ) ≤ x :=
  ⟨by decide,
   rankSentences_lower_bound (fun _ => false)
     ["Cats run.".toList, "Dogs sit.".toList] (by decide)⟩

/-- C2: `summarize` returns the empty string on falsy (empty) input and
on text with no non-blank paragraphs, and returns the original input
text unchanged whenever segmentation produces at most one sentence; all
other behaviour is reached only past these guards.  (The embedding is a
total function, so no input can make it throw.) -/
theorem summarize_degenerate (sw : List Char → Bool) (text : List Char)
    (rat : ℚ) (maxSentences : Option ℕ) (options : Summarizer.SummarizeOptions) :
    (text = [] → Summarizer.summarize sw text rat maxSentences options = []) ∧
    (Summarizer.paragraphsOf text = [] →
      Summarizer.summarize sw text rat maxSentences options = []) ∧
    (Summarizer.paragraphsOf text ≠ [] →
      (Summarizer.sentencesWithMetadata sw options.favorPositionScore text).length ≤ 1 →
      Summarizer.summarize sw text rat maxSentences options = text) := by
  refine ⟨?_, ?_, ?_⟩
  · intro h
    simp only [Summarizer.summarize]
    rw [if_pos h]
  · intro h
    by_cases ht : text = []
    · simp only [Summarizer.summarize]
      rw [if_pos ht]
    · simp only [Summarizer.summarize]
      rw [if_neg ht, if_pos h]
  · intro hp hm
    have ht : text ≠ [] := by
      intro h
      apply hp
      rw [h]
      decide
    simp only [Summarizer.summarize]
    rw [if_neg ht, if_neg hp, if_pos hm]

/-- C2 witness: the three degenerate cases at concrete inputs — the
empty string, a whitespace-only text, and a one-sentence document. -/
theorem summarize_degenerate_witness :
    Summarizer.summarize (fun _ => false) "".toList 0.3 none
      (Summarizer.SummarizeOptions.mk false false) = [] ∧
    Summarizer.summarize (fun _ => false) "   \n\n  ".toList 0.3 none
      (Summarizer.SummarizeOptions.mk false false) = [] ∧
    Summarizer.summarize (fun _ => false) "Hello world".toList 0.3 none
      (Summarizer.SummarizeOptions.mk false false) = "Hello world".toList :=
  ⟨(summarize_degenerate (fun _ => false) "".toList 0.3 none
      (Summarizer.SummarizeOptions.mk false false)).1 rfl,
   (summarize_degenerate (fun _ => false) "   \n\n  ".toList 0.3 none
      (Summarizer.SummarizeOptions.mk false false)).2.1 (by decide),
   (summarize_degenerate (fun _ => false) "Hello world".toList 0.3 none
      (Summarizer.SummarizeOptions.mk false false)).2.2 (by decide) (by decide)⟩
section SelectionMachinery

open Summarizer

/-- A fold whose step either keeps the accumulator or appends one
element produces the accumulator followed by a sublist of the input
(shape of `deduplicateSentences`). -/
theorem foldl_keep_or_append {α : Type} (f : List α → α → List α)
    (hf : ∀ res c, f res c = res ∨ f res c = res ++ [c]) :
    ∀ (l init : List α), ∃ t, l.foldl f init = init ++ t ∧ t.Sublist l := by
  intro l
  induction l with
  | nil => exact fun init => ⟨[], by simp, List.Sublist.refl []⟩
  | cons c rest ih =>
    intro init
    obtain ⟨t, ht, hsub⟩ := ih (f init c)
    rcases hf init c with h | h
    · exact ⟨t, by simpa [h] using ht, hsub.trans (List.sublist_cons_self c rest)⟩
    · exact ⟨c :: t, by simpa [h] using ht, hsub.cons_cons c⟩

/-- Such a fold never shrinks the accumulator. -/
theorem foldl_keep_or_append_length {α : Type} (f : List α → α → List α)
    (hf : ∀ res c, f res c = res ∨ f res c = res ++ [c]) :
    ∀ (l init : List α), init.length ≤ (l.foldl f init).length := by
  intro l init
  obtain ⟨t, ht, _⟩ := foldl_keep_or_append f hf l init
  simp [ht]

/-- The step of `deduplicateSentences` keeps or appends. -/
theorem dedup_step_keep_or_append (sw : List Char → Bool) (θ : ℝ) :
    ∀ (result : List SentenceWithMetadata) (candidate : SentenceWithMetadata),
      (if ∃ s ∈ result,
          θ < TextRank.calculateSimilarity sw candidate.text s.text then result
        else result ++ [candidate]) = result ∨
      (if ∃ s ∈ result,
          θ < TextRank.calculateSimilarity sw candidate.text s.text then result
        else result ++ [candidate]) = result ++ [candidate] := by
  intro result candidate
  split
  · exact Or.inl rfl
  · exact Or.inr rfl

/-- `deduplicateSentences` returns a sublist of its candidates. -/
theorem deduplicateSentences_sublist (sw : List Char → Bool)
    (candidates : List SentenceWithMetadata) (θ : ℝ) :
    (deduplicateSentences sw candidates θ).Sublist candidates := by
  rw [deduplicateSentences]
  obtain ⟨t, ht, hsub⟩ :=
    foldl_keep_or_append _ (dedup_step_keep_or_append sw θ) candidates []
  rw [ht]
  simpa using hsub

/-- `deduplicateSentences` keeps at least one candidate. -/
theorem deduplicateSentences_ne_nil (sw : List Char → Bool)
    (candidates : List SentenceWithMetadata) (θ : ℝ)
    (h : candidates ≠ []) : deduplicateSentences sw candidates θ ≠ [] := by
  match candidates, h with
  | c :: rest, _ =>
    rw [deduplicateSentences]
    simp only [List.foldl_cons]
    have hfirst :
        (if ∃ s ∈ ([] : List SentenceWithMetadata),
            (θ : ℝ) < TextRank.calculateSimilarity sw c.text s.text then
          ([] : List SentenceWithMetadata)
         else [] ++ [c]) = [c] := by
      rw [if_neg]
      · simp
      · simp
    rw [hfirst]
    intro hnil
    have := foldl_keep_or_append_length _ (dedup_step_keep_or_append sw θ) rest [c]
    rw [hnil] at this
    simp at this

/-- Every record produced for one paragraph has that paragraph index,
and its global index is `gStart` plus a local position below the
sentence count. -/
theorem metaOfParagraph_mem (sw : List Char → Bool) (favor : Bool)
    (paragraphTotal paragraphIdx gStart : ℕ) (sentences : List (List Char)) :
    ∀ s ∈ metaOfParagraph sw favor paragraphTotal paragraphIdx gStart sentences,
      s.paragraph = paragraphIdx ∧ gStart ≤ s.index ∧
        s.index < gStart + sentences.length := by
  intro s hs
  rw [metaOfParagraph] at hs
  obtain ⟨p, hp, rfl⟩ := List.mem_map.mp hs
  have hlt : p.1 < sentences.length := by
    have : p.1 ∈ sentences.enum.map Prod.fst := List.mem_map_of_mem Prod.fst hp
    rw [List.enum_map_fst] at this
    exact List.mem_range.mp this
  refine ⟨rfl, Nat.le_add_right _ _, ?_⟩
  simp only [SentenceWithMetadata.mk.injEq]
  omega

/-- The per-paragraph records are pairwise strictly increasing in index
and constant in paragraph. -/
theorem metaOfParagraph_pairwise (sw : List Char → Bool) (favor : Bool)
    (paragraphTotal paragraphIdx gStart : ℕ) (sentences : List (List Char)) :
    List.Pairwise (fun s t => s.index < t.index ∧ s.paragraph ≤ t.paragraph)
      (metaOfParagraph sw favor paragraphTotal paragraphIdx gStart sentences) := by
  rw [metaOfParagraph]
  rw [List.pairwise_map]
  have hfst : List.Pairwise (fun p q : ℕ × List Char => p.1 < q.1) sentences.enum := by
    have := List.pairwise_lt_range sentences.length
    rw [← List.enum_map_fst sentences, List.pairwise_map] at this
    exact this
  refine hfst.imp ?_
  intro p q hpq
  exact ⟨by simpa using hpq, le_refl _⟩

/-- The whole metadata list is pairwise strictly increasing in global
index and nondecreasing in paragraph index. -/
theorem buildMetadata_pairwise (sw : List Char → Bool) (favor : Bool)
    (paragraphTotal : ℕ) :
    ∀ (ps : List (List Char)) (paragraphIdx gIdx : ℕ),
      List.Pairwise (fun s t => s.index < t.index ∧ s.paragraph ≤ t.paragraph)
        (buildMetadata sw favor paragraphTotal paragraphIdx gIdx ps) ∧
      (∀ s ∈ buildMetadata sw favor paragraphTotal paragraphIdx gIdx ps,
        gIdx ≤ s.index ∧ paragraphIdx ≤ s.paragraph) := by
  intro ps
  induction ps with
  | nil => intro pIdx gIdx; simp [buildMetadata]
  | cons p rest ih =>
    intro pIdx gIdx
    simp only [buildMetadata]
    constructor
    · rw [List.pairwise_append]
      refine ⟨metaOfParagraph_pairwise sw favor paragraphTotal pIdx gIdx _, (ih _ _).1, ?_⟩
      intro a ha b hb
      obtain ⟨hpa, hga, hlt⟩ := metaOfParagraph_mem sw favor paragraphTotal pIdx gIdx _ a ha
      obtain ⟨hgb, hpb⟩ := (ih (pIdx + 1) (gIdx + (Tokenizer.splitSentences p).length)).2 b hb
      exact ⟨by omega, by omega⟩
    · intro s hs
      rcases List.mem_append.mp hs with h | h
      · obtain ⟨hp', hg', _⟩ := metaOfParagraph_mem sw favor paragraphTotal pIdx gIdx _ s h
        omega
      · obtain ⟨hg', hp'⟩ := (ih (pIdx + 1) (gIdx + (Tokenizer.splitSentences p).length)).2 s h
        omega

/-- Pairwise structure of the full metadata list of a text. -/
theorem sentencesWithMetadata_pairwise (sw : List Char → Bool) (favor : Bool)
    (text : List Char) :
    List.Pairwise (fun s t => s.index < t.index ∧ s.paragraph ≤ t.paragraph)
      (sentencesWithMetadata sw favor text) :=
  (buildMetadata_pairwise sw favor _ _ 0 0).1

/-- Within the metadata list, a smaller-or-equal global index forces a
smaller-or-equal paragraph index. -/
theorem sentencesWithMetadata_para_mono (sw : List Char → Bool) (favor : Bool)
    (text : List Char) :
    ∀ s ∈ sentencesWithMetadata sw favor text,
      ∀ t ∈ sentencesWithMetadata sw favor text,
        s.index ≤ t.index → s.paragraph ≤ t.paragraph := by
  intro s hs t ht hle
  have hpw := sentencesWithMetadata_pairwise sw favor text
  rw [List.pairwise_iff_getElem] at hpw
  obtain ⟨i, hi, rfl⟩ := List.mem_iff_getElem.mp hs
  obtain ⟨j, hj, rfl⟩ := List.mem_iff_getElem.mp ht
  rcases Nat.lt_trichotomy i j with h | h | h
  · exact (hpw i j hi hj h).2
  · subst h; exact le_refl _
  · have := (hpw j i hj hi h).1
    omega

end SelectionMachinery

section SelectionMachinery2

open Summarizer

/-- Every sentence in the candidate pool comes from the metadata
list. -/
theorem topSentencesOf_subset (sw : List Char → Bool) (text : List Char)
    (rat : ℚ) (maxSentences : Option ℕ) (options : SummarizeOptions) :
    ∀ s ∈ topSentencesOf sw text rat maxSentences options,
      s ∈ sentencesWithMetadata sw options.favorPositionScore text := by
  simp only [topSentencesOf]
  intro s hs
  obtain ⟨p, hp, rfl⟩ := List.mem_map.mp hs
  have hp2 := List.mem_mergeSort.mp ((List.take_sublist _ _).subset hp)
  obtain ⟨t, ht, rfl⟩ := List.mem_map.mp hp2
  exact ht

/-- Every selected sentence comes from the metadata list. -/
theorem selectedSentencesOf_subset (sw : List Char → Bool) (text : List Char)
    (rat : ℚ) (maxSentences : Option ℕ) (options : SummarizeOptions) :
    ∀ s ∈ selectedSentencesOf sw text rat maxSentences options,
      s ∈ sentencesWithMetadata sw options.favorPositionScore text := by
  simp only [selectedSentencesOf]
  intro s hs
  have hs2 := List.mem_mergeSort.mp hs
  refine topSentencesOf_subset sw text rat maxSentences options s ?_
  split at hs2
  · exact (deduplicateSentences_sublist sw _ 0.6).subset
      ((List.take_sublist _ _).subset hs2)
  · exact hs2

/-- With deduplication disabled the selection has exactly
`min (target count) total` sentences. -/
theorem selectedSentencesOf_length_nodedup (sw : List Char → Bool)
    (text : List Char) (rat : ℚ) (maxSentences : Option ℕ)
    (options : SummarizeOptions) (h : options.deduplicateSimilar = false) :
    (selectedSentencesOf sw text rat maxSentences options).length =
      min
        (sentenceCountOf
          (sentencesWithMetadata sw options.favorPositionScore text).length
          rat maxSentences)
        (sentencesWithMetadata sw options.favorPositionScore text).length := by
  simp [selectedSentencesOf, topSentencesOf, h, List.length_mergeSort,
    List.length_take]

/-- The final selection is sorted by ascending original index. -/
theorem selectedSentencesOf_sorted (sw : List Char → Bool) (text : List Char)
    (rat : ℚ) (maxSentences : Option ℕ) (options : SummarizeOptions) :
    List.Pairwise (fun s t : SentenceWithMetadata => s.index ≤ t.index)
      (selectedSentencesOf sw text rat maxSentences options) := by
  rw [selectedSentencesOf]
  have hs := @List.sorted_mergeSort SentenceWithMetadata
    (fun a b : SentenceWithMetadata => decide (a.index ≤ b.index))
    (fun a b c hab hbc => by
      simp only [decide_eq_true_eq] at *
      omega)
    (fun a b => by
      simp only [Bool.or_eq_true, decide_eq_true_eq]
      omega)
    (if options.deduplicateSimilar then
      (deduplicateSentences sw (topSentencesOf sw text rat maxSentences options)
        0.6).take
        (sentenceCountOf
          (sentencesWithMetadata sw options.favorPositionScore text).length
          rat maxSentences)
     else topSentencesOf sw text rat maxSentences options)
  exact hs.imp fun hab => by simpa using hab

/-- Indices inside the metadata list are pairwise distinct. -/
theorem sentencesWithMetadata_index_nodup (sw : List Char → Bool)
    (favor : Bool) (text : List Char) :
    ((sentencesWithMetadata sw favor text).map fun s => s.index).Nodup := by
  have hpw := sentencesWithMetadata_pairwise sw favor text
  have hlt : List.Pairwise (fun a b : ℕ => a < b)
      ((sentencesWithMetadata sw favor text).map fun s => s.index) :=
    List.pairwise_map.mpr (hpw.imp fun h => h.1)
  exact hlt.imp ne_of_lt

/-- Indices inside the final selection are pairwise distinct. -/
theorem selectedSentencesOf_index_nodup (sw : List Char → Bool)
    (text : List Char) (rat : ℚ) (maxSentences : Option ℕ)
    (options : SummarizeOptions) :
    ((selectedSentencesOf sw text rat maxSentences options).map
      fun s => s.index).Nodup := by
  have hmeta := sentencesWithMetadata_index_nodup sw options.favorPositionScore text
  simp only [selectedSentencesOf, topSentencesOf]
  generalize hM : sentencesWithMetadata sw options.favorPositionScore text = M at hmeta ⊢
  generalize scoreLookup (scoreSentences sw M
    (calculateTfIdf sw (M.map fun s => s.text))) = F
  have h1 : ((M.map fun s => (s, F s.index)).map fun p => p.1.index).Nodup := by
    rw [List.map_map]
    exact hmeta
  have h2 : (((M.map fun s => (s, F s.index)).mergeSort
      fun a b => decide (b.2 ≤ a.2)).map fun p => p.1.index).Nodup :=
    (((List.mergeSort_perm _ _).map _).nodup_iff).mpr h1
  have h3 : ∀ k : ℕ, (((((M.map fun s => (s, F s.index)).mergeSort
      fun a b => decide (b.2 ≤ a.2)).take k).map fun p => p.1).map
        fun s => s.index).Nodup := by
    intro k
    rw [List.map_map]
    exact ((List.take_sublist _ _).map _).nodup h2
  have htops : ∀ k : ℕ, ((((M.map fun s => (s, F s.index)).mergeSort
      fun a b => decide (b.2 ≤ a.2)).take k).map (fun p => p.1) |>.map
        (fun s => s.index)).Nodup := h3
  set tops := (((M.map fun s => (s, F s.index)).mergeSort
      fun a b => decide (b.2 ≤ a.2)).take
        (if options.deduplicateSimilar then
          sentenceCountOf M.length rat maxSentences * 2
         else sentenceCountOf M.length rat maxSentences)).map fun p => p.1
    with hdef
  have htopsn : (tops.map fun s => s.index).Nodup := htops _
  have hchosen : ((if options.deduplicateSimilar then
      (deduplicateSentences sw tops 0.6).take
        (sentenceCountOf M.length rat maxSentences)
     else tops).map fun s => s.index).Nodup := by
    split
    · exact (((List.take_sublist _ _).trans
        (deduplicateSentences_sublist sw tops 0.6)).map _).nodup htopsn
    · exact htopsn
  exact (((List.mergeSort_perm _ _).map _).nodup_iff).mpr hchosen

end SelectionMachinery2

section SelectionMachinery3

open Summarizer

/-- The candidate pool size: the target count (doubled under
deduplication) capped by the total sentence count. -/
theorem topSentencesOf_length (sw : List Char → Bool) (text : List Char)
    (rat : ℚ) (maxSentences : Option ℕ) (options : SummarizeOptions) :
    (topSentencesOf sw text rat maxSentences options).length =
      min
        (if options.deduplicateSimilar then
          sentenceCountOf
            (sentencesWithMetadata sw options.favorPositionScore text).length
            rat maxSentences * 2
         else
          sentenceCountOf
            (sentencesWithMetadata sw options.favorPositionScore text).length
            rat maxSentences)
        (sentencesWithMetadata sw options.favorPositionScore text).length := by
  simp [topSentencesOf, List.length_take, List.length_mergeSort]

/-- The target sentence count is positive whenever any sentence
exists. -/
theorem sentenceCountOf_pos (total : ℕ) (rat : ℚ) (maxSentences : Option ℕ)
    (h : 1 ≤ total) : 1 ≤ sentenceCountOf total rat maxSentences := by
  have hfrac : 1 ≤ ((max 1 ⌊(total : ℚ) * rat⌋).toNat) := by
    have h1 : (1 : ℤ) ≤ max 1 ⌊(total : ℚ) * rat⌋ := le_max_left _ _
    omega
  match maxSentences with
  | none => simpa [sentenceCountOf] using hfrac
  | some m =>
    by_cases hm : m = 0
    · simpa [sentenceCountOf, hm] using hfrac
    · simp only [sentenceCountOf, if_neg hm]
      omega

/-- The selection is never empty when the document has sentences. -/
theorem selectedSentencesOf_ne_nil (sw : List Char → Bool) (text : List Char)
    (rat : ℚ) (maxSentences : Option ℕ) (options : SummarizeOptions)
    (h : 1 ≤ (sentencesWithMetadata sw options.favorPositionScore text).length) :
    selectedSentencesOf sw text rat maxSentences options ≠ [] := by
  have hc := sentenceCountOf_pos
    (sentencesWithMetadata sw options.favorPositionScore text).length
    rat maxSentences h
  have htops : 1 ≤ (topSentencesOf sw text rat maxSentences options).length := by
    rw [topSentencesOf_length]
    by_cases hd : options.deduplicateSimilar <;> simp [hd] <;> omega
  rw [selectedSentencesOf]
  intro hnil
  have hlen := congrArg List.length hnil
  rw [List.length_mergeSort] at hlen
  simp only [List.length_nil] at hlen
  split at hlen
  · rw [List.length_take] at hlen
    have hne : deduplicateSentences sw
        (topSentencesOf sw text rat maxSentences options) 0.6 ≠ [] :=
      deduplicateSentences_ne_nil _ _ _ (List.length_pos.mp (by omega))
    have := List.length_pos.mpr hne
    omega
  · omega

/-- Inserting into the keyed paragraph map keeps the key list unchanged
when the key is present, and appends the key otherwise. -/
theorem insertIntoGroups_keys (gs : List (ℕ × List SentenceWithMetadata))
    (s : SentenceWithMetadata) :
    (insertIntoGroups gs s).map Prod.fst =
      if s.paragraph ∈ gs.map Prod.fst then gs.map Prod.fst
      else gs.map Prod.fst ++ [s.paragraph] := by
  rw [insertIntoGroups]
  split
  · rename_i hany
    rw [if_pos]
    · rw [List.map_map]
      apply List.map_congr_left
      intro g _
      by_cases hg : g.1 = s.paragraph <;> simp [hg]
    · obtain ⟨g, hg, hk⟩ := List.any_eq_true.mp hany
      rw [decide_eq_true_eq] at hk
      exact List.mem_map.mpr ⟨g, hg, hk⟩
  · rename_i hany
    rw [if_neg]
    · simp
    · intro hmem
      obtain ⟨g, hg, hk⟩ := List.mem_map.mp hmem
      exact hany (List.any_eq_true.mpr ⟨g, hg, decide_eq_true hk⟩)

/-- Folding a paragraph-sorted selection into the keyed map keeps the
key list strictly increasing. -/
theorem foldl_insert_keys_sorted :
    ∀ (l : List SentenceWithMetadata) (gs : List (ℕ × List SentenceWithMetadata)),
      List.Pairwise (fun a b : ℕ => a < b) (gs.map Prod.fst) →
      List.Pairwise (fun s t : SentenceWithMetadata =>
        s.paragraph ≤ t.paragraph) l →
      (∀ k ∈ gs.map Prod.fst, ∀ s ∈ l, k ≤ s.paragraph) →
      List.Pairwise (fun a b : ℕ => a < b)
        ((l.foldl insertIntoGroups gs).map Prod.fst) := by
  intro l
  induction l with
  | nil => intro gs hgs _ _; simpa using hgs
  | cons s rest ih =>
    intro gs hgs hl hcross
    rw [List.foldl_cons]
    obtain ⟨hhead, htail⟩ := List.pairwise_cons.mp hl
    refine ih (insertIntoGroups gs s) ?_ htail ?_
    · rw [insertIntoGroups_keys]
      split
      · exact hgs
      · rename_i hnotmem
        rw [List.pairwise_append]
        refine ⟨hgs, List.pairwise_singleton _ _, ?_⟩
        intro k hk b hb
        rw [List.mem_singleton] at hb
        subst hb
        have hle := hcross k hk s (List.mem_cons_self s rest)
        have hne : k ≠ s.paragraph := fun he => hnotmem (he ▸ hk)
        omega
    · intro k hk t ht
      rw [insertIntoGroups_keys] at hk
      split at hk
      · exact hcross k hk t (List.mem_cons_of_mem s ht)
      · rcases List.mem_append.mp hk with hk | hk
        · exact hcross k hk t (List.mem_cons_of_mem s ht)
        · rw [List.mem_singleton] at hk
          subst hk
          exact hhead t ht

end SelectionMachinery3

section ClaimTheorems38

open Summarizer

/-- C8: in every output of `summarize`, paragraphs appear in ascending
original-paragraph-index order: the keyed map `sentencesByParagraph` is
filled from the index-sorted selection, global index order refines
paragraph order, so the insertion order of the keys — which is the
order of the emitted paragraph summaries — is strictly increasing. -/
theorem summarize_paragraphs_ascending (sw : List Char → Bool)
    (text : List Char) (rat : ℚ) (maxSentences : Option ℕ)
    (options : SummarizeOptions) :
    List.Sorted (fun a b : ℕ => a < b)
      ((sentenceGroupsOf sw text rat maxSentences options).map Prod.fst) := by
  rw [sentenceGroupsOf]
  refine foldl_insert_keys_sorted _ [] (by simp) ?_ (by simp)
  have hsor := selectedSentencesOf_sorted sw text rat maxSentences options
  refine hsor.imp_of_mem ?_
  intro a b ha hb hle
  exact sentencesWithMetadata_para_mono sw options.favorPositionScore text a
    (selectedSentencesOf_subset sw text rat maxSentences options a ha) b
    (selectedSentencesOf_subset sw text rat maxSentences options b hb) hle

/-- C9: a supplied maximum of 0 is falsy, so the target count falls
back to the fraction-based branch exactly as if no maximum had been
supplied, and the selection is never empty for a document with
sentences. -/
theorem maxSentences_zero_falls_back (sw : List Char → Bool) (text : List Char)
    (rat : ℚ) (options : SummarizeOptions)
    (h2 : 2 ≤ (sentencesWithMetadata sw options.favorPositionScore text).length) :
    sentenceCountOf
        (sentencesWithMetadata sw options.favorPositionScore text).length rat
        (some 0) =
      sentenceCountOf
        (sentencesWithMetadata sw options.favorPositionScore text).length rat
        none ∧
    selectedSentencesOf sw text rat (some 0) options ≠ [] :=
  ⟨rfl, selectedSentencesOf_ne_nil sw text rat (some 0) options (by omega)⟩

/-- C9 witness: a concrete two-sentence document summarised with
`maxSentences = 0`. -/
theorem maxSentences_zero_falls_back_witness :
    2 ≤ (sentencesWithMetadata (fun _ => false)
        (SummarizeOptions.mk false false).favorPositionScore
        "One fish. Two fish".toList).length ∧
    selectedSentencesOf (fun _ => false) "One fish. Two fish".toList 0.3
      (some 0) (SummarizeOptions.mk false false) ≠ [] :=
  ⟨by decide,
   (maxSentences_zero_falls_back (fun _ => false) "One fish. Two fish".toList
     0.3 (SummarizeOptions.mk false false) (by decide)).2⟩

/-- C3 counterexample: with `summaryRatio = 2` (no maximum,
deduplication off) on a two-sentence document, the claimed count
`max(1, floor(totalSentences × summaryRatio))` is 4, but the code can
only select the 2 existing sentences. -/
theorem selection_fraction_count_counterexample :
    (selectedSentencesOf (fun _ => false) "One fish. Two fish".toList 2 none
      (SummarizeOptions.mk false false)).length = 2 ∧
    (max 1
      ⌊((sentencesWithMetadata (fun _ => false)
          (SummarizeOptions.mk false false).favorPositionScore
          "One fish. Two fish".toList).length : ℚ) * 2⌋).toNat = 4 := by
  have ht : (sentencesWithMetadata (fun _ => false)
      (SummarizeOptions.mk false false).favorPositionScore
      "One fish. Two fish".toList).length = 2 := by decide
  constructor
  · rw [selectedSentencesOf_length_nodedup (fun _ => false)
      "One fish. Two fish".toList 2 none (SummarizeOptions.mk false false) rfl,
      ht]
    have hc : sentenceCountOf 2 2 none = (max 1 ⌊((2 : ℕ) : ℚ) * 2⌋).toNat := rfl
    rw [hc]
    norm_num
  · rw [ht]
    norm_num
    try rfl

/-- C3 (amended): for a document with at least two sentences and
deduplication disabled, `summarize` selects exactly
`min(maxSentences, total)` sentences when a nonzero maximum is
supplied, exactly `min(total, max(1, floor(total × summaryRatio)))`
sentences otherwise, and the selected sentences are in strictly
ascending original-document order. -/
theorem selection_count_and_order (sw : List Char → Bool) (text : List Char)
    (rat : ℚ) (maxSentences : Option ℕ) (options : SummarizeOptions)
    (hdedup : options.deduplicateSimilar = false)
    (h2 : 2 ≤ (sentencesWithMetadata sw options.favorPositionScore text).length) :
    (∀ m, maxSentences = some m → m ≠ 0 →
      (selectedSentencesOf sw text rat maxSentences options).length =
        min m (sentencesWithMetadata sw options.favorPositionScore text).length) ∧
    (maxSentences = none →
      (selectedSentencesOf sw text rat maxSentences options).length =
        min
          ((max 1
            ⌊((sentencesWithMetadata sw options.favorPositionScore
                text).length : ℚ) * rat⌋).toNat)
          (sentencesWithMetadata sw options.favorPositionScore text).length) ∧
    List.Sorted (fun a b : ℕ => a < b)
      ((selectedSentencesOf sw text rat maxSentences options).map
        fun s => s.index) := by
  refine ⟨?_, ?_, ?_⟩
  · intro m hm hm0
    subst hm
    rw [selectedSentencesOf_length_nodedup sw text rat (some m) options hdedup]
    simp only [sentenceCountOf, if_neg hm0]
    omega
  · intro hm
    subst hm
    rw [selectedSentencesOf_length_nodedup sw text rat none options hdedup]
    have hc : sentenceCountOf
        (sentencesWithMetadata sw options.favorPositionScore text).length rat
        none =
      (max 1
        ⌊((sentencesWithMetadata sw options.favorPositionScore
            text).length : ℚ) * rat⌋).toNat := rfl
    rw [hc]
  · have h1 := selectedSentencesOf_sorted sw text rat maxSentences options
    have h2n := selectedSentencesOf_index_nodup sw text rat maxSentences options
    have h2p : List.Pairwise
        (fun s t : SentenceWithMetadata => s.index ≠ t.index)
        (selectedSentencesOf sw text rat maxSentences options) :=
      List.pairwise_map.mp h2n
    exact List.pairwise_map.mpr ((h1.and h2p).imp fun h => lt_of_le_of_ne h.1 h.2)

/-- C3 witness: the amended count applied to a concrete three-sentence
document with a supplied maximum of 2. -/
theorem selection_count_and_order_witness :
    (selectedSentencesOf (fun _ => false)
      "One fish. Two fish. Red fish".toList 0.3 (some 2)
      (SummarizeOptions.mk false false)).length =
      min 2 (sentencesWithMetadata (fun _ => false)
        (SummarizeOptions.mk false false).favorPositionScore
        "One fish. Two fish. Red fish".toList).length :=
  (selection_count_and_order (fun _ => false)
    "One fish. Two fish. Red fish".toList 0.3 (some 2)
    (SummarizeOptions.mk false false) rfl (by decide)).1 2 rfl (by decide)

end ClaimTheorems38

